import Mathlib

/-!
Verification of the unwind-information synthesis layer of the wasmtime
ahead-of-time compiler: the frame-layout extractor, the CFA state tracker,
the `.debug_frame` binary encoder (`lib/debug/src/frame.rs`), and the
parallel per-function compile orchestrator (`lib/environ/src/cranelift.rs`).

Machine integers are modelled as `Nat`/`Int` with explicit wrap-around
(`% 2^w`) where the Rust code performs `as` casts or wrapping arithmetic.
Rust panics (`assert!`, `panic!`) are modelled as failure outcomes
(`Option`/`Except`), since a panic aborts the computation with no result.
-/

namespace Wasmtime

/-- Unsigned LEB128 encoding, as produced by
`gimli::write::Writer::write_uleb128`: 7 bits at a time, low first,
continuation bit 0x80 on all but the last byte. -/
def uleb128 (n : Nat) : List Nat :=
  if h : n < 0x80 then [n]
  else (n % 0x80 + 0x80) :: uleb128 (n / 0x80)
decreasing_by omega

/-- Signed LEB128 encoding, as produced by
`gimli::write::Writer::write_sleb128`: `val >>= 7` is arithmetic shift,
i.e. floor division by 128 (`Int` euclidean division by a positive
constant); done when the rest is 0 with clear sign bit or -1 with set
sign bit. -/
def sleb128 (i : Int) : List Nat :=
  if h : (i / 0x80 = 0 ∧ (i % 0x80).toNat < 0x40) ∨
         (i / 0x80 = -1 ∧ 0x40 ≤ (i % 0x80).toNat) then
    [(i % 0x80).toNat]
  else ((i % 0x80).toNat + 0x80) :: sleb128 (i / 0x80)
termination_by i.natAbs
decreasing_by omega

/-- The 4 bytes of `write_u32` (little endian). -/
def u32le (n : Nat) : List Nat :=
  [n % 0x100, n / 0x100 % 0x100, n / 0x10000 % 0x100, n / 0x1000000 % 0x100]

/-- The 8 bytes of `write_u64` (little endian). -/
def u64le (n : Nat) : List Nat :=
  [n % 0x100, n / 0x100 % 0x100, n / 0x10000 % 0x100, n / 0x1000000 % 0x100,
   n / 0x100000000 % 0x100, n / 0x10000000000 % 0x100,
   n / 0x1000000000000 % 0x100, n / 0x100000000000000 % 0x100]

/-- Model of `write_u32_at pos val`: overwrite the 4 bytes at `pos` in the buffer. -/
def patchU32At (buf : List Nat) (pos : Nat) (n : Nat) : List Nat :=
  buf.take pos ++ u32le n ++ buf.drop (pos + 4)

/-- The `u32` subtraction with wrap-around, for `entry_len - size_of::<u32>()`. -/
def u32sub (a b : Nat) : Nat :=
  (a % 2 ^ 32 + (2 ^ 32 - b % 2 ^ 32)) % 2 ^ 32

/-- Rust `as u64` on an `isize`: two's-complement reinterpretation. -/
def intAsU64 (i : Int) : Nat :=
  (i % (2 ^ 64 : Int)).toNat

/-- Rust `as u32` on a `usize`. -/
def natAsU32 (n : Nat) : Nat := n % 2 ^ 32

/-- The `lib/debug/src/frame.rs` `CallFrameInstruction`.  Registers are the
DWARF register numbers carried by `gimli::Register` (a `u16`). -/
inductive CallFrameInstruction where
  | advanceLoc (delta : Nat)
  | defCfa (register : Nat) (offset : Nat)
  | defCfaRegister (register : Nat)
  | defCfaOffset (offset : Nat)
  | offset (register : Nat) (factored_offset : Nat)
deriving DecidableEq, Repr

/-- Model of `CallFrameInstruction::write`: the bytes appended to the writer, or
`none` when an `assert!` fires (`delta < 0x40` for `AdvanceLoc`,
`register.0 < 0x40` for `Offset`). -/
def CallFrameInstruction.write : CallFrameInstruction → Option (List Nat)
  | .advanceLoc delta =>
      if delta < 0x40 then some [0x40 ||| delta % 0x100] else none
  | .defCfa r off =>
      some (0x0c :: (uleb128 r ++ uleb128 off))
  | .defCfaRegister r =>
      some (0x0d :: uleb128 r)
  | .defCfaOffset off =>
      some (0x0e :: uleb128 off)
  | .offset r f =>
      if r < 0x40 then
        some ((0x80 ||| r % 0x100) :: uleb128 f)
      else none

/-- The `tail_len` computed by `pad_with_nop`: `(!len + 1) & (align - 1)`
in `usize` arithmetic. -/
def padTailLen (len align : Nat) : Nat :=
  ((2 ^ 64 - 1 - len % 2 ^ 64 + 1) % 2 ^ 64) &&& (align - 1)

/-- Model of `pad_with_nop`: append `tail_len` copies of `DW_CFA_nop` (byte 0). -/
def padWithNop (len align : Nat) : List Nat :=
  List.replicate (padTailLen len align) 0

/-- The writer state threaded through the encoder: the growing output
buffer (`EndianVec`) plus the relocation-offset list. -/
structure WState where
  buf : List Nat
  relocs : List Nat
deriving DecidableEq, Repr

/-- The `for instr in instructions` loop shared by FDE and CIE writing:
appends each instruction's bytes; a panicking instruction aborts with the
buffer as written so far. -/
def writeInstrs : List CallFrameInstruction → List Nat → Except (List Nat) (List Nat)
  | [], buf => .ok buf
  | i :: is, buf =>
      match i.write with
      | none => .error buf
      | some bs => writeInstrs is (buf ++ bs)

/-- The `lib/debug/src/frame.rs` `FDEEntry`. -/
structure FDEEntry where
  initial_location : Nat
  address_range : Nat
  instructions : List CallFrameInstruction

/-- Model of `FDEEntry::write`: length placeholder, CIE pointer, relocation slot,
`assert!(address_size == 8)`, the two 8-byte address fields, the
instruction stream, nop padding to `address_size`, then the true length
(minus the 4 prefix bytes) patched at `pos`.  A panic (`.error`) carries
the state as written when it fired. -/
def FDEEntry.write (e : FDEEntry) (cie_ptr : Nat) (address_size : Nat)
    (s : WState) : Except WState WState :=
  let pos := s.buf.length
  let buf := s.buf ++ u32le 0
  let buf := buf ++ u32le cie_ptr
  let relocs := s.relocs ++ [buf.length]
  if address_size = 8 then
    let buf := buf ++ u64le e.initial_location
    let buf := buf ++ u64le e.address_range
    match writeInstrs e.instructions buf with
    | .error buf => .error ⟨buf, relocs⟩
    | .ok buf =>
      let entry_len := buf.length - pos
      let buf := buf ++ padWithNop entry_len address_size
      let entry_len := natAsU32 (buf.length - pos)
      .ok ⟨patchU32At buf pos (u32sub entry_len 4), relocs⟩
  else .error ⟨buf, relocs⟩

/-- The `lib/debug/src/frame.rs` `CIEEntry`. -/
structure CIEEntry where
  version : Nat
  aug : String
  address_size : Nat
  segment_selector_size : Nat
  code_alignment_factor : Nat
  data_alignment_factor : Int
  return_address_register : Nat
  aug_data : List Nat
  initial_instructions : List CallFrameInstruction
  fde_entries : List FDEEntry

/-- The FDE loop at the end of `CIEEntry::write`. -/
def writeFdes (cie_ptr : Nat) (address_size : Nat) :
    List FDEEntry → WState → Except WState WState
  | [], s => .ok s
  | f :: fs, s =>
      match f.write cie_ptr address_size s with
      | .error s' => .error s'
      | .ok s' => writeFdes cie_ptr address_size fs s'

/-- Model of `CIEEntry::write`: length placeholder, the `0xFFFFFFFF` CIE id,
version, `assert!(aug.len() == 0)`, augmentation terminator, address size,
segment selector size, alignment factors, return-address register, initial
instructions, nop padding, length patch; then every owned FDE with
`cie_ptr = pos`. -/
def CIEEntry.write (c : CIEEntry) (s : WState) : Except WState WState :=
  let pos := s.buf.length
  let buf := s.buf ++ u32le 0
  let buf := buf ++ u32le 0xFFFFFFFF
  let buf := buf ++ [c.version]
  if c.aug.length = 0 then
    let buf := buf ++ [0x00]
    let buf := buf ++ [c.address_size]
    let buf := buf ++ [c.segment_selector_size]
    let buf := buf ++ uleb128 c.code_alignment_factor
    let buf := buf ++ sleb128 c.data_alignment_factor
    let buf := buf ++ uleb128 c.return_address_register
    match writeInstrs c.initial_instructions buf with
    | .error buf => .error ⟨buf, s.relocs⟩
    | .ok buf =>
      let entry_len := buf.length - pos
      let buf := buf ++ padWithNop entry_len c.address_size
      let entry_len := natAsU32 (buf.length - pos)
      let s' : WState := ⟨patchU32At buf pos (u32sub entry_len 4), s.relocs⟩
      writeFdes pos c.address_size c.fde_entries s'
  else .error ⟨buf, s.relocs⟩

/-- Model of `DebugFrameTable::write`: write every CIE entry in order. -/
def DebugFrameTable.write : List CIEEntry → WState → Except WState WState
  | [], s => .ok s
  | c :: cs, s =>
      match c.write s with
      | .error s' => .error s'
      | .ok s' => DebugFrameTable.write cs s'

/-- The `RegisterMappingError` enum from
`cranelift/codegen/src/isa/unwind/systemv.rs`: the typed errors possible in
mapping Cranelift registers to their DWARF equivalent. -/
inductive RegisterMappingError where
  | missingBank
  | unsupportedArchitecture
  | unsupportedRegisterBank (bank : String)
deriving DecidableEq, Repr

/-- Outcome of a register translation.  The type distinguishes a normal
result, an untyped Rust panic (`assert!`/`panic!`), and a typed
`RegisterMappingError`, so that claims about which error channel is used
are expressible. -/
inductive MapRegOutcome where
  | ok (reg : Nat)
  | panicked
  | typedError (e : RegisterMappingError)
deriving DecidableEq, Repr

/-- The name table inside `map_reg` (`lib/debug/src/frame.rs`): display
name of the register unit to the gimli `X86_64` DWARF register number
(`RAX=0, RDX=1, RCX=2, RBX=3, RSI=4, RDI=5, RBP=6, RSP=7, RA=16`). -/
def dwarfRegOfName : String → Option Nat
  | "%rax" => some 0
  | "%rdx" => some 1
  | "%rcx" => some 2
  | "%rbx" => some 3
  | "%rsi" => some 4
  | "%rdi" => some 5
  | "%rbp" => some 6
  | "%rsp" => some 7
  | "%r16" => some 16
  | _ => none

/-- The target facts `map_reg` and `get_debug_frame_bytes` consult:
`isa.name()`, `isa.pointer_bytes()`, and the display name
`isa.register_info().display_regunit(reg)` of each register unit. -/
structure Isa where
  name : String
  pointer_bytes : Nat
  regName : Nat → String

/-- Model of `map_reg` (`lib/debug/src/frame.rs`), cold-cache behaviour: asserts
`isa.name() == "x86"`, then looks the display name up in the table,
panicking (`panic!("{}", reg)`) on an unrecognized name.  It never
produces a typed `RegisterMappingError`. -/
def map_reg (isa : Isa) (reg : Nat) : MapRegOutcome :=
  if isa.name = "x86" then
    match dwarfRegOfName (isa.regName reg) with
    | some r => .ok r
    | none => .panicked
  else .panicked

/-- The `FrameLayoutCommand` type (`wasmtime_environ`): `MoveLocationBy` carries a
`usize` delta; the other two carry a register unit and an `isize`
offset. -/
inductive FrameLayoutCommand where
  | moveLocationBy (delta : Nat)
  | callFrameAddressAt (reg : Nat) (offset : Int)
  | regAt (reg : Nat) (cfa_offset : Int)
deriving DecidableEq, Repr

/-- One iteration of the per-function command loop of
`get_debug_frame_bytes`: from the tracked `(cfa_def_reg, cfa_def_offset)`
state, the new state and the (possibly empty) list of emitted
instructions; `none` models a panic (`assert!` failure or `map_reg`
panic).  The Rust `%` and `/` on `isize` are truncating, i.e. `Int.tmod`
and `Int.tdiv`. -/
def processCommand (isa : Isa) (st : Nat × Nat) :
    FrameLayoutCommand → Option ((Nat × Nat) × List CallFrameInstruction)
  | .moveLocationBy delta =>
      some (st, [.advanceLoc (natAsU32 delta)])
  | .callFrameAddressAt reg offset =>
      match map_reg isa reg with
      | .ok mapped =>
        let off := intAsU64 offset
        if mapped ≠ st.1 ∧ off ≠ st.2 then
          some ((mapped, off), [.defCfa mapped off])
        else if off ≠ st.2 then
          some ((st.1, off), [.defCfaOffset off])
        else if mapped ≠ st.1 then
          some ((mapped, st.2), [.defCfaRegister mapped])
        else
          some (st, [])
      | _ => none
  | .regAt reg cfa_offset =>
      if Int.tmod cfa_offset (-8) = 0 then
        let factored_offset := intAsU64 (Int.tdiv cfa_offset (-8))
        match map_reg isa reg with
        | .ok mapped => some (st, [.offset mapped factored_offset])
        | _ => none
      else none

/-- The whole per-function command loop: threads the tracked state and
concatenates the emitted instructions. -/
def processCommands (isa : Isa) (st : Nat × Nat) :
    List FrameLayoutCommand → Option ((Nat × Nat) × List CallFrameInstruction)
  | [] => some (st, [])
  | c :: cs =>
      match processCommand isa st c with
      | none => none
      | some (st', emitted) =>
        match processCommands isa st' cs with
        | none => none
        | some (st'', rest) => some (st'', emitted ++ rest)

/-- The calling conventions compared against in the
`l.call_conv == CallConv::Fast || …` assertion. -/
inductive CallConv where
  | fast
  | cold
  | systemV
  | other (tag : Nat)
deriving DecidableEq, Repr

/-- The `FrameLayout` record (`wasmtime_environ`): a function's calling convention
plus its frame-layout command sequence. -/
structure FrameLayout where
  call_conv : CallConv
  commands : List FrameLayoutCommand

/-- The per-function FDE construction loop of `get_debug_frame_bytes`:
for function `i` of byte length `f_len`, run the tracker from
`(RSP, 8) = (7, 8)` over `layouts[i]` and build an FDE with zero
placeholder location and `address_range = f_len`. -/
def buildFdes (isa : Isa) (layouts : List FrameLayout) :
    List Nat → Nat → Option (List FDEEntry)
  | [], _ => some []
  | f_len :: fs, i =>
      match layouts.get? i with
      | none => none
      | some layout =>
        match processCommands isa (7, 8) layout.commands with
        | none => none
        | some (_, instructions) =>
          match buildFdes isa layouts fs (i + 1) with
          | none => none
          | some fdes =>
            some ({ initial_location := 0, address_range := f_len,
                    instructions := instructions } :: fdes)

/-- Model of `get_debug_frame_bytes` (`lib/debug/src/frame.rs`): asserts the
architecture is `"x86"` and every layout's calling convention is
`Fast`/`Cold`/`SystemV`, builds the fixed version-4 CIE (code alignment 1,
data alignment −8, return-address register 16, initial instructions
`DefCfa(RSP=7, 8); Offset(RA=16, 1)`), one FDE per function, and
serializes the table; returns the buffer and relocation offsets, or
`none` on any panic.  `funcs` is the list of function body lengths
(`f.1` of each `(*const u8, usize)` pair). -/
def get_debug_frame_bytes (funcs : List Nat) (isa : Isa)
    (layouts : List FrameLayout) : Option (List Nat × List Nat) :=
  if isa.name = "x86" ∧
     ∀ l ∈ layouts, l.call_conv = .fast ∨ l.call_conv = .cold ∨
       l.call_conv = .systemV then
    let address_size := isa.pointer_bytes
    match buildFdes isa layouts funcs 0 with
    | none => none
    | some fdes =>
      let cie : CIEEntry :=
        { version := 4
          aug := ""
          address_size := address_size
          segment_selector_size := 0
          code_alignment_factor := 1
          data_alignment_factor := -8
          return_address_register := 16
          aug_data := []
          initial_instructions :=
            [.defCfa 7 8, .offset 16 1]
          fde_entries := fdes }
      match DebugFrameTable.write [cie] ⟨[], []⟩ with
      | .error _ => none
      | .ok s => some (s.buf, s.relocs)
  else none

/-- The `ir::FrameLayoutChange` variants as matched by `get_frame_layout`
(`lib/environ/src/cranelift.rs`): the raw directive attached to an
instruction. -/
inductive FrameLayoutChange where
  | callFrameAddressAt (reg : Nat) (offset : Int)
  | regAt (reg : Nat) (cfa_offset : Int)
deriving DecidableEq, Repr

/-- The `match *c` arms of `get_frame_layout`: copy each raw directive
into the corresponding `FrameLayoutCommand`. -/
def FrameLayoutChange.toCommand : FrameLayoutChange → FrameLayoutCommand
  | .callFrameAddressAt reg offset => .callFrameAddressAt reg offset
  | .regAt reg cfa_offset => .regAt reg cfa_offset

/-- One instruction as seen by `get_frame_layout` after the ebbs are
sorted by emitted offset: its emitted code offset, its encoded size, and
`func.inst_frame_layout_changes(&inst)` (the attached raw directives, if
any). -/
structure InstInfo where
  offset : Nat
  size : Nat
  changes : Option (List FrameLayoutChange)

/-- The instruction loop of `get_frame_layout`, carrying `last_offset`:
for each instruction with attached directives, `assert!(last_offset <
address_offset)` with `address_offset = offset + size`, push
`MoveLocationBy(address_offset - last_offset)`, push the converted
directives, and record `last_offset = address_offset`.  `none` models the
assertion panic. -/
def getFrameLayoutAux (last : Nat) :
    List InstInfo → Option (List FrameLayoutCommand)
  | [] => some []
  | i :: is =>
      match i.changes with
      | none => getFrameLayoutAux last is
      | some cmds =>
        let address_offset := i.offset + i.size
        if last < address_offset then
          match getFrameLayoutAux address_offset is with
          | none => none
          | some rest =>
            some ((FrameLayoutCommand.moveLocationBy (address_offset - last) ::
                   cmds.map FrameLayoutChange.toCommand) ++ rest)
        else none

/-- Model of `get_frame_layout` over the instructions of a function, flattened in
ascending emitted-offset order; `last_offset` starts at 0. -/
def get_frame_layout (insts : List InstInfo) :
    Option (List FrameLayoutCommand) :=
  getFrameLayoutAux 0 insts

/-- The frame-affecting instructions: end offset paired with the attached
directives, in order. -/
def frameAffecting (insts : List InstInfo) :
    List (Nat × List FrameLayoutChange) :=
  insts.filterMap (fun i => i.changes.map (fun c => (i.offset + i.size, c)))

/-- Direct form of the extractor's output: one `MoveLocationBy` of the
offset difference before each frame-affecting instruction's converted
directives. -/
def layoutOfAffecting : Nat → List (Nat × List FrameLayoutChange) →
    List FrameLayoutCommand
  | _, [] => []
  | last, (a, cmds) :: rest =>
      (FrameLayoutCommand.moveLocationBy (a - last) ::
       cmds.map FrameLayoutChange.toCommand) ++ layoutOfAffecting a rest

/-- The two per-function stages of `compile_module`
(`lib/environ/src/cranelift.rs`): `FuncTranslator::translate` (errors
mapped to `CompileError::Wasm`) and `Context::compile_and_emit` (errors
mapped to `CompileError::Codegen`). -/
inductive Stage where
  | translation
  | codegen
deriving DecidableEq, Repr

/-- Modelled from the spec: `CompileError`
(`lib/environ/src/compilation.rs` is not part of the sources here); per
§4.5/§7 a module-compile failure carries "an error identifying the failing
function and stage". -/
structure CompileErr where
  func : Nat
  stage : Stage
deriving DecidableEq, Repr

/-- The per-function closure of `compile_module`: translate the function
body, then run code generation; each stage's failure aborts this
function's task with the corresponding error.  `translateF`/`codegenF`
are the external collaborators (cranelift), abstracted as pure
functions; `α` is the per-function result quadruple (code bytes,
relocations, address transform, frame layout). -/
def compileOne (translateF : Nat → β → Option γ)
    (codegenF : Nat → γ → Option α) (i : Nat) (input : β) :
    Except CompileErr α :=
  match translateF i input with
  | none => .error ⟨i, .translation⟩
  | some c =>
    match codegenF i c with
    | none => .error ⟨i, .codegen⟩
    | some a => .ok a

/-- Fan-out: run the per-function tasks in the given completion order
(each task a pure function of its own `(index, input)` pair, sharing
nothing mutable); the first failure in completion order is reported. -/
def runTasks (translateF : Nat → β → Option γ)
    (codegenF : Nat → γ → Option α) :
    List (Nat × β) → Except CompileErr (List (Nat × α))
  | [] => .ok []
  | (i, input) :: rest =>
      match compileOne translateF codegenF i input with
      | .error e => .error e
      | .ok a =>
        match runTasks translateF codegenF rest with
        | .error e => .error e
        | .ok rs => .ok ((i, a) :: rs)

/-- Fan-in: place each completed task's result at its function index in a
collection of length `n` — by index, never by completion order; `none`
if some index was never filled. -/
def fillRange (pairs : List (Nat × α)) : List Nat → Option (List α)
  | [] => some []
  | i :: is =>
      match pairs.find? (fun p => p.1 == i) with
      | none => none
      | some p =>
        match fillRange pairs is with
        | none => none
        | some res => some (p.2 :: res)

/-- The `(index, input)` pairs in index order:
`function_body_inputs.into_iter().collect::<Vec<_>>()`. -/
def enumerate (inputs : List β) : List (Nat × β) :=
  (List.range inputs.length).zip inputs

/-- Model of `compile_module` with the parallel fan-out modelled by an arbitrary
completion order `order` (a permutation of the enumerated inputs): run
every task, then restore index order. -/
def compile_module (translateF : Nat → β → Option γ)
    (codegenF : Nat → γ → Option α) (inputs : List β)
    (order : List (Nat × β)) : Except CompileErr (Option (List α)) :=
  match runTasks translateF codegenF order with
  | .error e => .error e
  | .ok pairs => .ok (fillRange pairs (List.range inputs.length))

/-- The sequential reference compile: the same per-function tasks run in
index order, results collected in that order. -/
def compile_module_seq (translateF : Nat → β → Option γ)
    (codegenF : Nat → γ → Option α) (inputs : List β) :
    Except CompileErr (List α) :=
  match runTasks translateF codegenF (enumerate inputs) with
  | .error e => .error e
  | .ok pairs => .ok (pairs.map Prod.snd)

/-- A concrete x86 target for instantiating the theorems: pointer width 8,
unit 7 displaying as `%rsp`, 6 as `%rbp`, 3 as `%rbx`, 16 as `%r16`, and
anything else as an `%xmm0` unit outside the name table. -/
def isaX86 : Isa where
  name := "x86"
  pointer_bytes := 8
  regName := fun r =>
    if r = 7 then "%rsp" else if r = 6 then "%rbp" else if r = 3 then "%rbx"
    else if r = 16 then "%r16" else "%xmm0"

/-- C2: the binary encoder serializes each call-frame instruction
byte-exactly: `AdvanceLoc{delta}` with `delta < 64` as the single byte
`0x40 | delta`; `DefCfa{register, offset}` as byte `0x0c`, ULEB128
register, ULEB128 offset; `DefCfaRegister{register}` as byte `0x0d`,
ULEB128 register; `DefCfaOffset{offset}` as byte `0x0e`, ULEB128 offset;
and `Offset{register, factoredOffset}` with `register < 64` as byte
`0x80 | register`, ULEB128 factoredOffset. -/
theorem encoder_serializes_byte_exact (delta r off f : Nat) :
    (delta < 64 →
      (CallFrameInstruction.advanceLoc delta).write = some [0x40 ||| delta]) ∧
    (CallFrameInstruction.defCfa r off).write =
      some (0x0c :: (uleb128 r ++ uleb128 off)) ∧
    (CallFrameInstruction.defCfaRegister r).write =
      some (0x0d :: uleb128 r) ∧
    (CallFrameInstruction.defCfaOffset off).write =
      some (0x0e :: uleb128 off) ∧
    (r < 64 →
      (CallFrameInstruction.offset r f).write =
        some ((0x80 ||| r) :: uleb128 f)) := by
  refine ⟨fun h => ?_, rfl, rfl, rfl, fun h => ?_⟩
  · simp [CallFrameInstruction.write, h, Nat.mod_eq_of_lt (show delta < 0x100 by omega)]
  · simp [CallFrameInstruction.write, h, Nat.mod_eq_of_lt (show r < 0x100 by omega)]

theorem encoder_serializes_byte_exact_witness :
    (CallFrameInstruction.advanceLoc 5).write = some [0x40 ||| 5] ∧
    (CallFrameInstruction.offset 33 9).write =
      some ((0x80 ||| 33) :: uleb128 9) :=
  ⟨(encoder_serializes_byte_exact 5 33 0 9).1 (by decide),
   (encoder_serializes_byte_exact 5 33 0 9).2.2.2.2 (by decide)⟩

/-- C5: encoding `AdvanceLoc{delta}` succeeds exactly when `delta < 64`,
producing the single byte `0x40 | delta`; for `delta ≥ 64` the encoder
fails (panics) and produces no output at all, so no silently truncated
`AdvanceLoc` byte can appear. -/
theorem advance_loc_fails_at_64 (delta : Nat) :
    (delta < 64 →
      (CallFrameInstruction.advanceLoc delta).write = some [0x40 ||| delta]) ∧
    (64 ≤ delta → (CallFrameInstruction.advanceLoc delta).write = none) := by
  constructor
  · intro h
    simp [CallFrameInstruction.write, h, Nat.mod_eq_of_lt (show delta < 0x100 by omega)]
  · intro h
    simp [CallFrameInstruction.write]
    omega

theorem advance_loc_fails_at_64_witness :
    (CallFrameInstruction.advanceLoc 63).write = some [0x40 ||| 63] ∧
    (CallFrameInstruction.advanceLoc 64).write = none :=
  ⟨(advance_loc_fails_at_64 63).1 (by decide),
   (advance_loc_fails_at_64 64).2 (by decide)⟩

/-- C4: for `RegisterAt{register, cfaOffset}`, when `cfaOffset` is an
exact multiple of the data alignment factor −8 the tracker emits
`Offset(mappedRegister, cfaOffset / −8)` (truncating division,
reinterpreted as `u64`) and leaves the CFA state unchanged; when it is
not a multiple of −8 the operation panics and emits nothing. -/
theorem reg_at_requires_alignment (isa : Isa) (st : Nat × Nat) (reg : Nat)
    (cfa_offset : Int) (mapped : Nat) (hm : map_reg isa reg = .ok mapped) :
    ((-8 : Int) ∣ cfa_offset →
      processCommand isa st (.regAt reg cfa_offset) =
        some (st, [.offset mapped (intAsU64 (Int.tdiv cfa_offset (-8)))])) ∧
    (¬ (-8 : Int) ∣ cfa_offset →
      processCommand isa st (.regAt reg cfa_offset) = none) := by
  constructor
  · intro h
    have hz : Int.tmod cfa_offset (-8) = 0 := Int.dvd_iff_tmod_eq_zero.mp h
    simp only [processCommand]
    rw [if_pos hz, hm]
  · intro h
    have hz : ¬ Int.tmod cfa_offset (-8) = 0 :=
      fun hc => h (Int.dvd_iff_tmod_eq_zero.mpr hc)
    simp only [processCommand]
    rw [if_neg hz]

theorem reg_at_requires_alignment_witness :
    processCommand isaX86 (7, 8) (.regAt 3 (-16)) =
      some ((7, 8), [CallFrameInstruction.offset 3 2]) ∧
    processCommand isaX86 (7, 8) (.regAt 3 (-15)) = none := by
  constructor
  · have h := (reg_at_requires_alignment isaX86 (7, 8) 3 (-16) 3 (by decide)).1
      (by decide)
    simpa using h
  · exact (reg_at_requires_alignment isaX86 (7, 8) 3 (-15) 3 (by decide)).2
      (by decide)

/-- C9 counterexample: on a non-x86 architecture, `map_reg` does not fail
with the typed `RegisterMappingError::UnsupportedArchitecture`; it
panics via `assert!(isa.name() == "x86")`, an untyped abort. -/
theorem map_reg_panics_not_typed :
    map_reg ⟨"arm", 8, fun _ => "%rax"⟩ 0 = .panicked ∧
    map_reg ⟨"arm", 8, fun _ => "%rax"⟩ 0 ≠
      .typedError .unsupportedArchitecture := by
  constructor
  · rfl
  · decide

/-- C9 amended: register translation fails by untyped panic
(`assert!`/`panic!`) both when the architecture tag is not `"x86"` and
when the register's display name is not in the table; it never surfaces a
typed `RegisterMappingError` (that enum exists in the unwind module but
is unused by this translator). -/
theorem map_reg_failure_channels (isa : Isa) (reg : Nat) :
    (isa.name ≠ "x86" → map_reg isa reg = .panicked) ∧
    (isa.name = "x86" → dwarfRegOfName (isa.regName reg) = none →
      map_reg isa reg = .panicked) ∧
    (∀ e, map_reg isa reg ≠ .typedError e) := by
  refine ⟨fun h => ?_, fun h hn => ?_, fun e => ?_⟩
  · simp [map_reg, h]
  · simp [map_reg, h, hn]
  · unfold map_reg
    split
    · cases hd : dwarfRegOfName (isa.regName reg) <;> simp [hd]
    · simp

theorem map_reg_failure_channels_witness :
    map_reg ⟨"arm", 8, fun _ => "%rax"⟩ 0 = .panicked ∧
    map_reg isaX86 0 = .panicked ∧
    map_reg isaX86 3 ≠ .typedError .missingBank :=
  ⟨(map_reg_failure_channels ⟨"arm", 8, fun _ => "%rax"⟩ 0).1 (by decide),
   (map_reg_failure_channels isaX86 0).2.1 (by decide) (by decide),
   (map_reg_failure_channels isaX86 3).2.2 .missingBank⟩

theorem processCommands_append (isa : Isa) (st : Nat × Nat)
    (l1 l2 : List FrameLayoutCommand) :
    processCommands isa st (l1 ++ l2) =
      match processCommands isa st l1 with
      | none => none
      | some (st', is1) =>
        match processCommands isa st' l2 with
        | none => none
        | some (st'', is2) => some (st'', is1 ++ is2) := by
  induction l1 generalizing st with
  | nil =>
      simp only [List.nil_append, processCommands]
      cases processCommands isa st l2 with
      | none => rfl
      | some p => obtain ⟨st', is2⟩ := p; rfl
  | cons c cs ih =>
      simp only [List.cons_append, processCommands]
      cases processCommand isa st c with
      | none => rfl
      | some p =>
          obtain ⟨st', emitted⟩ := p
          simp only [List.append_eq, ih st']
          cases processCommands isa st' cs with
          | none => rfl
          | some q =>
              obtain ⟨st'', rest⟩ := q
              dsimp only
              cases processCommands isa st'' l2 with
              | none => rfl
              | some r =>
                  obtain ⟨st3, is2⟩ := r
                  dsimp only
                  rw [List.append_assoc]

/-- C1: processing a `CallFrameAddressAt{register, offset}` command after
any command sequence run from the architecture entry state `(RSP, 8) =
(7, 8)`: when both the mapped register and the offset differ from the
tracked state exactly one `DefCfa(register, offset)` is emitted; when only
the offset differs exactly one `DefCfaOffset(offset)`; when only the
register differs exactly one `DefCfaRegister(register)`; when neither
differs nothing is emitted; in each emitting case the tracked state
becomes the new `(register, offset)`. -/
theorem cfa_tracker_minimal_emission (isa : Isa)
    (cmds : List FrameLayoutCommand) (st : Nat × Nat)
    (instrs : List CallFrameInstruction) (reg : Nat) (offset : Int)
    (mapped : Nat)
    (hrun : processCommands isa (7, 8) cmds = some (st, instrs))
    (hm : map_reg isa reg = .ok mapped) :
    (mapped ≠ st.1 ∧ intAsU64 offset ≠ st.2 →
      processCommands isa (7, 8) (cmds ++ [.callFrameAddressAt reg offset]) =
        some ((mapped, intAsU64 offset),
          instrs ++ [.defCfa mapped (intAsU64 offset)])) ∧
    (mapped = st.1 ∧ intAsU64 offset ≠ st.2 →
      processCommands isa (7, 8) (cmds ++ [.callFrameAddressAt reg offset]) =
        some ((mapped, intAsU64 offset),
          instrs ++ [.defCfaOffset (intAsU64 offset)])) ∧
    (mapped ≠ st.1 ∧ intAsU64 offset = st.2 →
      processCommands isa (7, 8) (cmds ++ [.callFrameAddressAt reg offset]) =
        some ((mapped, intAsU64 offset),
          instrs ++ [.defCfaRegister mapped])) ∧
    (mapped = st.1 ∧ intAsU64 offset = st.2 →
      processCommands isa (7, 8) (cmds ++ [.callFrameAddressAt reg offset]) =
        some (st, instrs)) := by
  have hstep : ∀ out,
      processCommand isa st (.callFrameAddressAt reg offset) = out →
      processCommands isa (7, 8) (cmds ++ [.callFrameAddressAt reg offset]) =
        match out with
        | none => none
        | some (st', emitted) => some (st', instrs ++ emitted) := by
    intro out hout
    rw [processCommands_append, hrun]
    simp [processCommands, hout]
    cases out with
    | none => rfl
    | some p => cases p with
        | mk a b => simp
  refine ⟨fun hc => ?_, fun hc => ?_, fun hc => ?_, fun hc => ?_⟩
  · have := hstep (some ((mapped, intAsU64 offset),
        [.defCfa mapped (intAsU64 offset)])) ?_
    · simpa using this
    · simp only [processCommand, hm]
      rw [if_pos hc]
  · obtain ⟨hc1, hc2⟩ := hc
    have := hstep (some ((st.1, intAsU64 offset),
        [.defCfaOffset (intAsU64 offset)])) ?_
    · rw [this, hc1]
    · simp only [processCommand, hm]
      rw [if_neg (by tauto), if_pos hc2]
  · obtain ⟨hc1, hc2⟩ := hc
    have := hstep (some ((mapped, st.2), [.defCfaRegister mapped])) ?_
    · rw [this, hc2]
    · simp only [processCommand, hm]
      rw [if_neg (by tauto), if_neg (by tauto), if_pos hc1]
  · obtain ⟨hc1, hc2⟩ := hc
    have := hstep (some (st, [])) ?_
    · simpa using this
    · simp only [processCommand, hm]
      rw [if_neg (by tauto), if_neg (by tauto), if_neg (by tauto)]

theorem cfa_tracker_minimal_emission_witness :
    processCommands isaX86 (7, 8)
      [FrameLayoutCommand.callFrameAddressAt 6 16] =
      some ((6, 16), [CallFrameInstruction.defCfa 6 16]) ∧
    processCommands isaX86 (7, 8)
      [FrameLayoutCommand.callFrameAddressAt 7 8] = some ((7, 8), []) := by
  constructor
  · have h := (cfa_tracker_minimal_emission isaX86 [] (7, 8) [] 6 16 6 rfl
      (by decide)).1 (by decide)
    simpa using h
  · have h := (cfa_tracker_minimal_emission isaX86 [] (7, 8) [] 7 8 7 rfl
      (by decide)).2.2.2 (by decide)
    simpa using h

theorem toCommand_ne_move (c : FrameLayoutChange) (d : Nat) :
    c.toCommand ≠ .moveLocationBy d := by
  cases c <;> simp [FrameLayoutChange.toCommand]

/-- C6: with instructions in ascending emitted-offset order, the
extractor emits before each frame-affecting instruction's directives a
single `MoveLocationBy(delta)`, `delta = instruction_end_offset -
last_recorded_offset`; it succeeds exactly when the recorded end offsets
are strictly increasing (a non-increasing offset is an assertion
failure), and no `MoveLocationBy(0)` ever appears in the output. -/
theorem extractor_emits_move_location_by (insts : List InstInfo) (last : Nat) :
    (getFrameLayoutAux last insts = none ↔
      ¬ List.Chain (· < ·) last ((frameAffecting insts).map Prod.fst)) ∧
    (List.Chain (· < ·) last ((frameAffecting insts).map Prod.fst) →
      getFrameLayoutAux last insts =
        some (layoutOfAffecting last (frameAffecting insts))) ∧
    (∀ l, getFrameLayoutAux last insts = some l →
      FrameLayoutCommand.moveLocationBy 0 ∉ l) := by
  induction insts generalizing last with
  | nil =>
      refine ⟨by simp [getFrameLayoutAux, frameAffecting], ?_, ?_⟩
      · intro _
        simp [getFrameLayoutAux, frameAffecting, layoutOfAffecting]
      · intro l hl
        simp only [getFrameLayoutAux, Option.some.injEq] at hl
        subst hl
        simp
  | cons i is ih =>
      cases hch : i.changes with
      | none =>
          have hfa : frameAffecting (i :: is) = frameAffecting is := by
            simp [frameAffecting, hch]
          have hgl : getFrameLayoutAux last (i :: is) =
              getFrameLayoutAux last is := by
            simp [getFrameLayoutAux, hch]
          rw [hfa, hgl]
          exact ih last
      | some cmds =>
          have hfa : frameAffecting (i :: is) =
              (i.offset + i.size, cmds) :: frameAffecting is := by
            simp [frameAffecting, hch]
          rw [hfa]
          by_cases hlt : last < i.offset + i.size
          · have hgl : getFrameLayoutAux last (i :: is) =
                match getFrameLayoutAux (i.offset + i.size) is with
                | none => none
                | some rest =>
                  some ((FrameLayoutCommand.moveLocationBy
                          (i.offset + i.size - last) ::
                        cmds.map FrameLayoutChange.toCommand) ++ rest) := by
              simp [getFrameLayoutAux, hch, hlt]
            obtain ⟨ih1, ih2, ih3⟩ := ih (i.offset + i.size)
            refine ⟨?_, ?_, ?_⟩
            · rw [hgl, List.map_cons, List.chain_cons]
              constructor
              · intro hn hc
                rw [ih2 hc.2] at hn
                exact Option.noConfusion hn
              · intro hnc
                have hx : getFrameLayoutAux (i.offset + i.size) is = none :=
                  ih1.mpr (fun hc => hnc ⟨hlt, hc⟩)
                rw [hx]
            · intro hc
              rw [List.map_cons, List.chain_cons] at hc
              rw [hgl, ih2 hc.2]
              dsimp only
              rw [show layoutOfAffecting last
                    ((i.offset + i.size, cmds) :: frameAffecting is) =
                  (FrameLayoutCommand.moveLocationBy (i.offset + i.size - last) ::
                    cmds.map FrameLayoutChange.toCommand) ++
                  layoutOfAffecting (i.offset + i.size) (frameAffecting is)
                from rfl]
            · intro l hl
              rw [hgl] at hl
              cases hrec : getFrameLayoutAux (i.offset + i.size) is with
              | none => rw [hrec] at hl; exact Option.noConfusion hl
              | some rest =>
                  rw [hrec] at hl
                  dsimp only at hl
                  have hle : l = (FrameLayoutCommand.moveLocationBy
                      (i.offset + i.size - last) ::
                      cmds.map FrameLayoutChange.toCommand) ++ rest :=
                    (Option.some.injEq _ _ ▸ hl).symm
                  subst hle
                  intro hmem
                  have hrest := ih3 rest hrec
                  rcases List.mem_append.mp hmem with hmem | hmem
                  · rcases List.mem_cons.mp hmem with hmem | hmem
                    · injection hmem with h
                      omega
                    · obtain ⟨c, _, hc⟩ := List.mem_map.mp hmem
                      exact toCommand_ne_move c 0 hc
                  · exact hrest hmem
          · have hgl : getFrameLayoutAux last (i :: is) = none := by
              simp [getFrameLayoutAux, hch, hlt]
            refine ⟨?_, ?_, ?_⟩
            · rw [hgl, List.map_cons, List.chain_cons]
              simp only [true_iff]
              exact fun hc => hlt hc.1
            · intro hc
              rw [List.map_cons, List.chain_cons] at hc
              exact absurd hc.1 hlt
            · intro l hl
              rw [hgl] at hl
              exact Option.noConfusion hl

theorem extractor_emits_move_location_by_witness :
    get_frame_layout
      [⟨0, 4, some [.callFrameAddressAt 7 16]⟩, ⟨4, 3, none⟩,
       ⟨7, 2, some [.regAt 3 (-16), .regAt 6 (-24)]⟩] =
      some [FrameLayoutCommand.moveLocationBy 4,
            FrameLayoutCommand.callFrameAddressAt 7 16,
            FrameLayoutCommand.moveLocationBy 5,
            FrameLayoutCommand.regAt 3 (-16),
            FrameLayoutCommand.regAt 6 (-24)] := by
  have hch : List.Chain (· < ·) 0
      ((frameAffecting [⟨0, 4, some [.callFrameAddressAt 7 16]⟩, ⟨4, 3, none⟩,
        ⟨7, 2, some [.regAt 3 (-16), .regAt 6 (-24)]⟩]).map Prod.fst) := by
    rw [show ((frameAffecting [⟨0, 4, some [.callFrameAddressAt 7 16]⟩,
        ⟨4, 3, none⟩,
        ⟨7, 2, some [.regAt 3 (-16), .regAt 6 (-24)]⟩]).map Prod.fst) = [4, 9]
      from rfl]
    exact List.Chain.cons (by omega) (List.Chain.cons (by omega) List.Chain.nil)
  have h := (extractor_emits_move_location_by
      [⟨0, 4, some [.callFrameAddressAt 7 16]⟩, ⟨4, 3, none⟩,
       ⟨7, 2, some [.regAt 3 (-16), .regAt 6 (-24)]⟩] 0).2.1 hch
  simpa [get_frame_layout, frameAffecting, layoutOfAffecting] using h

/-- The `len` bytes of the buffer starting at `pos`. -/
def bytesAt (buf : List Nat) (pos len : Nat) : List Nat :=
  (buf.drop pos).take len

theorem u32le_length (n : Nat) : (u32le n).length = 4 := rfl

theorem u64le_length (n : Nat) : (u64le n).length = 8 := rfl

theorem padWithNop_length (len align : Nat) :
    (padWithNop len align).length = padTailLen len align :=
  List.length_replicate _ _

theorem padTailLen_eight (len : Nat) : (len + padTailLen len 8) % 8 = 0 := by
  unfold padTailLen
  rw [show (8 : Nat) - 1 = 2 ^ 3 - 1 from rfl, Nat.and_pow_two_sub_one_eq_mod]
  omega

theorem patchU32At_length (buf : List Nat) (pos n : Nat)
    (h : pos + 4 ≤ buf.length) :
    (patchU32At buf pos n).length = buf.length := by
  simp [patchU32At, u32le]
  omega

theorem bytesAt_patchU32At_self (buf : List Nat) (pos n : Nat)
    (h : pos + 4 ≤ buf.length) :
    bytesAt (patchU32At buf pos n) pos 4 = u32le n := by
  unfold bytesAt patchU32At
  rw [List.append_assoc,
      List.drop_left' (show (buf.take pos).length = pos by
        rw [List.length_take]; omega),
      List.take_left' (u32le_length n)]

theorem u32sub_four (a : Nat) (h4 : 4 ≤ a) (hlt : a < 2 ^ 32) :
    u32sub (natAsU32 a) 4 = a - 4 := by
  unfold u32sub natAsU32
  omega

theorem writeInstrs_ok_append (is : List CallFrameInstruction)
    (buf out : List Nat) (h : writeInstrs is buf = .ok out) :
    ∃ l, out = buf ++ l := by
  induction is generalizing buf with
  | nil =>
      simp only [writeInstrs, Except.ok.injEq] at h
      exact ⟨[], by simp [h]⟩
  | cons i is ih =>
      simp only [writeInstrs] at h
      cases hw : i.write with
      | none => rw [hw] at h; exact Except.noConfusion h
      | some bs =>
          rw [hw] at h
          obtain ⟨l, hl⟩ := ih (buf ++ bs) h
          exact ⟨bs ++ l, by simp [hl]⟩

theorem fde_write_ok_len (e : FDEEntry) (cie_ptr : Nat) (s s' : WState)
    (h : e.write cie_ptr 8 s = .ok s') :
    s.buf.length + 24 ≤ s'.buf.length ∧
    (s'.buf.length - s.buf.length) % 8 = 0 ∧
    (s'.buf.length - s.buf.length < 2 ^ 32 →
      bytesAt s'.buf s.buf.length 4 =
        u32le (s'.buf.length - s.buf.length - 4)) := by
  simp only [FDEEntry.write, if_pos] at h
  cases hw : writeInstrs e.instructions
      (s.buf ++ u32le 0 ++ u32le cie_ptr ++ u64le e.initial_location ++
        u64le e.address_range) with
  | error b => rw [hw] at h; exact Except.noConfusion h
  | ok out =>
      rw [hw] at h
      obtain ⟨l, rfl⟩ := writeInstrs_ok_append _ _ _ hw
      cases h
      have hB : (s.buf ++ u32le 0 ++ u32le cie_ptr ++
          u64le e.initial_location ++ u64le e.address_range ++ l).length =
          s.buf.length + 24 + l.length := by
        simp [u32le, u64le]
        omega
      have hlen0 : (s.buf ++ u32le 0 ++ u32le cie_ptr ++
          u64le e.initial_location ++ u64le e.address_range ++ l).length -
          s.buf.length = 24 + l.length := by omega
      have hb2 : ((s.buf ++ u32le 0 ++ u32le cie_ptr ++
          u64le e.initial_location ++ u64le e.address_range ++ l) ++
          padWithNop (24 + l.length) 8).length =
          s.buf.length + 24 + l.length + padTailLen (24 + l.length) 8 := by
        rw [List.length_append, padWithNop_length, hB]
      rw [hlen0]
      have hple : s.buf.length + 4 ≤ ((s.buf ++ u32le 0 ++ u32le cie_ptr ++
          u64le e.initial_location ++ u64le e.address_range ++ l) ++
          padWithNop (24 + l.length) 8).length := by omega
      rw [patchU32At_length _ _ _ (by omega), hb2]
      have hmod := padTailLen_eight (24 + l.length)
      refine ⟨by omega, by omega, ?_⟩
      intro hlt
      rw [bytesAt_patchU32At_self _ _ _ (by omega)]
      rw [u32sub_four _ (by omega) (by omega)]

theorem uleb128_length_pos (n : Nat) : 1 ≤ (uleb128 n).length := by
  unfold uleb128
  split <;> simp

theorem sleb128_length_pos (i : Int) : 1 ≤ (sleb128 i).length := by
  unfold sleb128
  split <;> simp

theorem patch_pad_spec (base : List Nat) (pos v : Nat)
    (hpos : pos + 4 ≤ base.length)
    (hv : v = u32sub (natAsU32
      ((base ++ padWithNop (base.length - pos) 8).length - pos)) 4) :
    (patchU32At (base ++ padWithNop (base.length - pos) 8) pos v).length =
      base.length + padTailLen (base.length - pos) 8 ∧
    ((patchU32At (base ++ padWithNop (base.length - pos) 8) pos v).length -
      pos) % 8 = 0 ∧
    ((patchU32At (base ++ padWithNop (base.length - pos) 8) pos v).length -
        pos < 2 ^ 32 →
      bytesAt (patchU32At (base ++ padWithNop (base.length - pos) 8) pos v)
          pos 4 =
        u32le ((patchU32At (base ++ padWithNop (base.length - pos) 8) pos
          v).length - pos - 4)) := by
  have hb2 : (base ++ padWithNop (base.length - pos) 8).length =
      base.length + padTailLen (base.length - pos) 8 := by
    rw [List.length_append, padWithNop_length]
  have hmod := padTailLen_eight (base.length - pos)
  have hx : (patchU32At (base ++ padWithNop (base.length - pos) 8) pos
        v).length =
      (base ++ padWithNop (base.length - pos) 8).length :=
    patchU32At_length _ _ _ (by omega)
  rw [hx, hb2]
  refine ⟨rfl, by omega, fun hlt => ?_⟩
  rw [bytesAt_patchU32At_self _ _ _ (by omega), hv, hb2,
      u32sub_four _ (by omega) (by omega)]

theorem cie_write_ok_len (c : CIEEntry) (s s' : WState)
    (has : c.address_size = 8) (hfd : c.fde_entries = [])
    (h : c.write s = .ok s') :
    s.buf.length + 16 ≤ s'.buf.length ∧
    (s'.buf.length - s.buf.length) % 8 = 0 ∧
    (s'.buf.length - s.buf.length < 2 ^ 32 →
      bytesAt s'.buf s.buf.length 4 =
        u32le (s'.buf.length - s.buf.length - 4)) := by
  simp only [CIEEntry.write, hfd, has] at h
  by_cases ha : c.aug.length = 0
  · rw [if_pos ha] at h
    cases hw : writeInstrs c.initial_instructions
        (s.buf ++ u32le 0 ++ u32le 0xFFFFFFFF ++ [c.version] ++ [0x00] ++
          [(8 : Nat)] ++ [c.segment_selector_size] ++
          uleb128 c.code_alignment_factor ++
          sleb128 c.data_alignment_factor ++
          uleb128 c.return_address_register) with
    | error b => rw [hw] at h; exact Except.noConfusion h
    | ok out =>
        rw [hw] at h
        simp only [writeFdes] at h
        obtain ⟨l, rfl⟩ := writeInstrs_ok_append _ _ _ hw
        cases h
        have hu1 := uleb128_length_pos c.code_alignment_factor
        have hu2 := uleb128_length_pos c.return_address_register
        have hs1 := sleb128_length_pos c.data_alignment_factor
        have hB : (s.buf ++ u32le 0 ++ u32le 0xFFFFFFFF ++ [c.version] ++
            [0x00] ++ [(8 : Nat)] ++ [c.segment_selector_size] ++
            uleb128 c.code_alignment_factor ++
            sleb128 c.data_alignment_factor ++
            uleb128 c.return_address_register ++ l).length =
            s.buf.length + 12 + (uleb128 c.code_alignment_factor).length +
            (sleb128 c.data_alignment_factor).length +
            (uleb128 c.return_address_register).length + l.length := by
          simp [u32le]
          omega
        obtain ⟨h1, h2, h3⟩ := patch_pad_spec
          (s.buf ++ u32le 0 ++ u32le 0xFFFFFFFF ++ [c.version] ++ [0x00] ++
            [(8 : Nat)] ++ [c.segment_selector_size] ++
            uleb128 c.code_alignment_factor ++
            sleb128 c.data_alignment_factor ++
            uleb128 c.return_address_register ++ l)
          s.buf.length _ (by omega) rfl
        refine ⟨?_, h2, h3⟩
        rw [h1]
        omega
  · rw [if_neg ha] at h
    exact Except.noConfusion h

theorem and_seven_eq_mod (x : Nat) : x &&& 7 = x % 8 := by
  rw [show (7 : Nat) = 2 ^ 3 - 1 from rfl, Nat.and_pow_two_sub_one_eq_mod]

/-- C3: for both entry kinds, on a successful write the 4-byte length
value patched in at the entry's start equals the entry's total serialized
length minus the 4 prefix bytes, and the total serialized length is a
multiple of the address size 8 (reached by `DW_CFA_nop` padding). -/
theorem entry_length_prefix_and_padding (e : FDEEntry) (c : CIEEntry)
    (cie_ptr : Nat) (s t s' t' : WState) :
    (e.write cie_ptr 8 s = .ok s' →
      s'.buf.length - s.buf.length < 2 ^ 32 →
      bytesAt s'.buf s.buf.length 4 =
        u32le (s'.buf.length - s.buf.length - 4) ∧
      (s'.buf.length - s.buf.length) % 8 = 0) ∧
    (c.address_size = 8 → c.fde_entries = [] → c.write t = .ok t' →
      t'.buf.length - t.buf.length < 2 ^ 32 →
      bytesAt t'.buf t.buf.length 4 =
        u32le (t'.buf.length - t.buf.length - 4) ∧
      (t'.buf.length - t.buf.length) % 8 = 0) := by
  constructor
  · intro h hlt
    obtain ⟨h1, h2, h3⟩ := fde_write_ok_len e cie_ptr s s' h
    exact ⟨h3 hlt, h2⟩
  · intro has hfd h hlt
    obtain ⟨h1, h2, h3⟩ := cie_write_ok_len c t t' has hfd h
    exact ⟨h3 hlt, h2⟩

theorem entry_length_prefix_and_padding_witness :
    (bytesAt [20, 0, 0, 0, 0, 0, 0, 0, 0, 0, 0, 0, 0, 0, 0, 0,
              16, 0, 0, 0, 0, 0, 0, 0] 0 4 = u32le 20 ∧
      ((24 : Nat) - 0) % 8 = 0) ∧
    (bytesAt [20, 0, 0, 0, 255, 255, 255, 255, 4, 0, 8, 0, 1, 120,
              16, 12, 7, 8, 144, 1, 0, 0, 0, 0] 0 4 = u32le 20 ∧
      ((24 : Nat) - 0) % 8 = 0) := by
  constructor
  · have h := (entry_length_prefix_and_padding ⟨0, 16, []⟩
        ⟨4, "", 8, 0, 1, -8, 16, [], [], []⟩ 0 ⟨[], []⟩ ⟨[], []⟩
        ⟨[20, 0, 0, 0, 0, 0, 0, 0, 0, 0, 0, 0, 0, 0, 0, 0,
          16, 0, 0, 0, 0, 0, 0, 0], [8]⟩ ⟨[], []⟩).1
        (by simp [FDEEntry.write, writeInstrs, padWithNop, padTailLen,
              u32le, u64le, patchU32At, u32sub, natAsU32, and_seven_eq_mod])
        (by norm_num)
    simpa using h
  · have h := (entry_length_prefix_and_padding ⟨0, 16, []⟩
        ⟨4, "", 8, 0, 1, -8, 16, [], [.defCfa 7 8, .offset 16 1], []⟩ 0
        ⟨[], []⟩ ⟨[], []⟩ ⟨[], []⟩
        ⟨[20, 0, 0, 0, 255, 255, 255, 255, 4, 0, 8, 0, 1, 120,
          16, 12, 7, 8, 144, 1, 0, 0, 0, 0], []⟩).2
        rfl rfl
        (by simp [CIEEntry.write, writeInstrs, CallFrameInstruction.write,
              uleb128, sleb128, writeFdes, padWithNop, padTailLen, u32le,
              patchU32At, u32sub, natAsU32, and_seven_eq_mod])
        (by norm_num)
    simpa using h

theorem bytesAt_append_left (buf l : List Nat) (r len : Nat)
    (h : r + len ≤ buf.length) :
    bytesAt (buf ++ l) r len = bytesAt buf r len := by
  unfold bytesAt
  rw [List.drop_append_eq_append_drop, List.take_append_eq_append_take]
  have h1 : len - (buf.drop r).length = 0 := by
    rw [List.length_drop]; omega
  rw [h1, List.take_zero, List.append_nil]

theorem bytesAt_append_exact (a b : List Nat) (len : Nat) :
    bytesAt (a ++ b) a.length len = b.take len := by
  unfold bytesAt
  rw [List.drop_left]

theorem bytesAt_take (buf : List Nat) (pos r len : Nat)
    (h : r + len ≤ pos) :
    bytesAt (buf.take pos) r len = bytesAt buf r len := by
  unfold bytesAt
  rw [List.drop_take, List.take_take, Nat.min_eq_left (by omega)]

theorem bytesAt_patch_before (buf : List Nat) (pos n r len : Nat)
    (hr : r + len ≤ pos) (hp : pos ≤ buf.length) :
    bytesAt (patchU32At buf pos n) r len = bytesAt buf r len := by
  unfold patchU32At
  rw [List.append_assoc,
      bytesAt_append_left _ _ _ _ (by rw [List.length_take]; omega),
      bytesAt_take _ _ _ _ hr]

theorem bytesAt_patch_after (buf : List Nat) (pos n r len : Nat)
    (hr : pos + 4 ≤ r) (hp : pos + 4 ≤ buf.length) :
    bytesAt (patchU32At buf pos n) r len = bytesAt buf r len := by
  unfold patchU32At bytesAt
  have hlen : ((buf.take pos ++ u32le n)).length = pos + 4 := by
    rw [List.length_append, List.length_take, u32le_length]
    omega
  have hd : List.drop r (buf.take pos ++ u32le n) = [] := by
    rw [List.drop_eq_nil_iff, hlen]
    omega
  rw [List.drop_append_eq_append_drop, hd, List.nil_append, hlen,
      List.drop_drop]
  congr 2
  omega

theorem fde_write_ok_as (e : FDEEntry) (cie_ptr a : Nat) (s s' : WState)
    (h : e.write cie_ptr a s = .ok s') : a = 8 := by
  by_cases ha : a = 8
  · exact ha
  · simp only [FDEEntry.write, if_neg ha] at h
    exact Except.noConfusion h

theorem fde_write_ok_state (e : FDEEntry) (cie_ptr : Nat) (s s' : WState)
    (h : e.write cie_ptr 8 s = .ok s') (h0 : e.initial_location = 0) :
    s'.relocs = s.relocs ++ [s.buf.length + 8] ∧
    s.buf.length + 24 ≤ s'.buf.length ∧
    bytesAt s'.buf (s.buf.length + 8) 8 = List.replicate 8 0 ∧
    (∀ r len, r + len ≤ s.buf.length →
      bytesAt s'.buf r len = bytesAt s.buf r len) := by
  simp only [FDEEntry.write, if_pos, h0] at h
  cases hw : writeInstrs e.instructions
      (s.buf ++ u32le 0 ++ u32le cie_ptr ++ u64le 0 ++
        u64le e.address_range) with
  | error b => rw [hw] at h; exact Except.noConfusion h
  | ok out =>
      rw [hw] at h
      obtain ⟨l, rfl⟩ := writeInstrs_ok_append _ _ _ hw
      cases h
      have hB : (s.buf ++ u32le 0 ++ u32le cie_ptr ++ u64le 0 ++
          u64le e.address_range ++ l).length =
          s.buf.length + 24 + l.length := by
        simp [u32le, u64le]
        omega
      have hb2 : ((s.buf ++ u32le 0 ++ u32le cie_ptr ++ u64le 0 ++
          u64le e.address_range ++ l) ++
          padWithNop ((s.buf ++ u32le 0 ++ u32le cie_ptr ++ u64le 0 ++
            u64le e.address_range ++ l).length - s.buf.length) 8).length =
          s.buf.length + 24 + l.length +
          padTailLen (24 + l.length) 8 := by
        rw [List.length_append, padWithNop_length, hB]
        congr 2
        omega
      have hplen : (patchU32At ((s.buf ++ u32le 0 ++ u32le cie_ptr ++
          u64le 0 ++ u64le e.address_range ++ l) ++
          padWithNop ((s.buf ++ u32le 0 ++ u32le cie_ptr ++ u64le 0 ++
            u64le e.address_range ++ l).length - s.buf.length) 8)
          s.buf.length
          (u32sub (natAsU32 (((s.buf ++ u32le 0 ++ u32le cie_ptr ++
            u64le 0 ++ u64le e.address_range ++ l) ++
            padWithNop ((s.buf ++ u32le 0 ++ u32le cie_ptr ++ u64le 0 ++
              u64le e.address_range ++ l).length - s.buf.length) 8).length -
            s.buf.length)) 4)).length =
          s.buf.length + 24 + l.length + padTailLen (24 + l.length) 8 := by
        rw [patchU32At_length _ _ _ (by omega), hb2]
      refine ⟨?_, ?_, ?_, ?_⟩
      · simp [u32le]
      · rw [hplen]; omega
      · rw [bytesAt_patch_after _ _ _ _ _ (by omega) (by omega)]
        have hsplit : (s.buf ++ u32le 0 ++ u32le cie_ptr ++ u64le 0 ++
            u64le e.address_range ++ l) ++
            padWithNop ((s.buf ++ u32le 0 ++ u32le cie_ptr ++ u64le 0 ++
              u64le e.address_range ++ l).length - s.buf.length) 8 =
            (s.buf ++ u32le 0 ++ u32le cie_ptr) ++
            (u64le 0 ++ (u64le e.address_range ++ (l ++
              padWithNop ((s.buf ++ u32le 0 ++ u32le cie_ptr ++ u64le 0 ++
                u64le e.address_range ++ l).length - s.buf.length) 8))) := by
          simp [List.append_assoc]
        rw [hsplit,
            show s.buf.length + 8 =
              (s.buf ++ u32le 0 ++ u32le cie_ptr).length by
              simp [u32le],
            bytesAt_append_exact]
        rw [List.take_append_of_le_length (by rw [u64le_length])]
        decide
      · intro r len hrl
        rw [bytesAt_patch_before _ _ _ _ _ (by omega) (by omega),
            bytesAt_append_left _ _ _ _ (by omega),
            bytesAt_append_left _ _ _ _ (by simp [u32le, u64le]; omega),
            bytesAt_append_left _ _ _ _ (by simp [u32le, u64le]; omega),
            bytesAt_append_left _ _ _ _ (by simp [u32le]; omega),
            bytesAt_append_left _ _ _ _ (by simp [u32le]; omega),
            bytesAt_append_left _ _ _ _ (by omega)]

/-- Every recorded relocation offset points at 8 in-bounds zero bytes. -/
def RelocsZeroed (s : WState) : Prop :=
  ∀ r ∈ s.relocs, r + 8 ≤ s.buf.length ∧
    bytesAt s.buf r 8 = List.replicate 8 0

theorem writeFdes_invariant (cie_ptr a : Nat) (fdes : List FDEEntry)
    (s s' : WState) (h : writeFdes cie_ptr a fdes s = .ok s')
    (h0 : ∀ f ∈ fdes, f.initial_location = 0) (hz : RelocsZeroed s) :
    RelocsZeroed s' ∧ s'.relocs.length = s.relocs.length + fdes.length := by
  induction fdes generalizing s with
  | nil =>
      simp only [writeFdes] at h
      cases h
      exact ⟨hz, by simp⟩
  | cons f fs ih =>
      simp only [writeFdes] at h
      cases hw : f.write cie_ptr a s with
      | error s1 => rw [hw] at h; exact Except.noConfusion h
      | ok s1 =>
          rw [hw] at h
          have ha := fde_write_ok_as f cie_ptr a s s1 hw
          subst ha
          obtain ⟨hr, hlen, hzero, hpres⟩ :=
            fde_write_ok_state f cie_ptr s s1 hw (h0 f (by simp))
          have hz1 : RelocsZeroed s1 := by
            intro r hmem
            rw [hr] at hmem
            rcases List.mem_append.mp hmem with hm | hm
            · obtain ⟨hb, he⟩ := hz r hm
              exact ⟨by omega, by rw [hpres r 8 hb]; exact he⟩
            · have hreq : r = s.buf.length + 8 := by simpa using hm
              subst hreq
              exact ⟨by omega, hzero⟩
          obtain ⟨hz2, hlen2⟩ := ih s1 h
            (fun g hg => h0 g (List.mem_cons_of_mem _ hg)) hz1
          refine ⟨hz2, ?_⟩
          rw [hlen2, hr, List.length_append]
          simp
          omega

theorem buildFdes_shape (isa : Isa) (layouts : List FrameLayout)
    (funcs : List Nat) (i : Nat) (fdes : List FDEEntry)
    (h : buildFdes isa layouts funcs i = some fdes) :
    fdes.length = funcs.length ∧ ∀ f ∈ fdes, f.initial_location = 0 := by
  induction funcs generalizing i fdes with
  | nil =>
      simp only [buildFdes, Option.some.injEq] at h
      subst h
      simp
  | cons flen fs ih =>
      simp only [buildFdes] at h
      cases h1 : layouts.get? i with
      | none => rw [h1] at h; exact Option.noConfusion h
      | some layout =>
          rw [h1] at h
          dsimp only at h
          cases h2 : processCommands isa (7, 8) layout.commands with
          | none => rw [h2] at h; exact Option.noConfusion h
          | some p =>
              obtain ⟨st, instrs⟩ := p
              rw [h2] at h
              dsimp only at h
              cases h3 : buildFdes isa layouts fs (i + 1) with
              | none => rw [h3] at h; exact Option.noConfusion h
              | some rest =>
                  rw [h3] at h
                  dsimp only at h
                  cases h
                  obtain ⟨hl, hall⟩ := ih (i + 1) rest h3
                  refine ⟨by simp [hl], ?_⟩
                  intro f hf
                  rcases List.mem_cons.mp hf with hf | hf
                  · subst hf; rfl
                  · exact hall f hf

theorem bytesAt_of_append_eq (a t b : List Nat) (hb : b = a ++ t)
    (r len : Nat) (h : r + len ≤ a.length) :
    bytesAt b r len = bytesAt a r len := by
  subst hb
  exact bytesAt_append_left _ _ _ _ h

theorem cie_write_state (c : CIEEntry) (s s' : WState)
    (h : c.write s = .ok s')
    (h0 : ∀ f ∈ c.fde_entries, f.initial_location = 0)
    (hz : RelocsZeroed s) :
    RelocsZeroed s' ∧
    s'.relocs.length = s.relocs.length + c.fde_entries.length := by
  simp only [CIEEntry.write] at h
  by_cases ha : c.aug.length = 0
  · rw [if_pos ha] at h
    cases hw : writeInstrs c.initial_instructions
        (s.buf ++ u32le 0 ++ u32le 0xFFFFFFFF ++ [c.version] ++ [0x00] ++
          [c.address_size] ++ [c.segment_selector_size] ++
          uleb128 c.code_alignment_factor ++
          sleb128 c.data_alignment_factor ++
          uleb128 c.return_address_register) with
    | error b => rw [hw] at h; exact Except.noConfusion h
    | ok out =>
        rw [hw] at h
        obtain ⟨l, rfl⟩ := writeInstrs_ok_append _ _ _ hw
        obtain ⟨t, ht⟩ : ∃ t,
            (s.buf ++ u32le 0 ++ u32le 0xFFFFFFFF ++ [c.version] ++ [0x00] ++
              [c.address_size] ++ [c.segment_selector_size] ++
              uleb128 c.code_alignment_factor ++
              sleb128 c.data_alignment_factor ++
              uleb128 c.return_address_register ++ l) ++
            padWithNop
              ((s.buf ++ u32le 0 ++ u32le 0xFFFFFFFF ++ [c.version] ++
                [0x00] ++ [c.address_size] ++ [c.segment_selector_size] ++
                uleb128 c.code_alignment_factor ++
                sleb128 c.data_alignment_factor ++
                uleb128 c.return_address_register ++ l).length -
                s.buf.length) c.address_size =
            s.buf ++ t :=
          ⟨u32le 0 ++ (u32le 0xFFFFFFFF ++ ([c.version] ++ ([0x00] ++
            ([c.address_size] ++ ([c.segment_selector_size] ++
              (uleb128 c.code_alignment_factor ++
                (sleb128 c.data_alignment_factor ++
                  (uleb128 c.return_address_register ++ (l ++
                    padWithNop
                      ((s.buf ++ u32le 0 ++ u32le 0xFFFFFFFF ++
                        [c.version] ++ [0x00] ++ [c.address_size] ++
                        [c.segment_selector_size] ++
                        uleb128 c.code_alignment_factor ++
                        sleb128 c.data_alignment_factor ++
                        uleb128 c.return_address_register ++ l).length -
                        s.buf.length) c.address_size))))))))),
            by simp [List.append_assoc]⟩
        have htlen : 12 ≤ t.length := by
          have hcl := congrArg List.length ht
          simp only [List.length_append, u32le_length,
            List.length_singleton] at hcl
          omega
        have hmid : RelocsZeroed ⟨patchU32At
            ((s.buf ++ u32le 0 ++ u32le 0xFFFFFFFF ++ [c.version] ++
              [0x00] ++ [c.address_size] ++ [c.segment_selector_size] ++
              uleb128 c.code_alignment_factor ++
              sleb128 c.data_alignment_factor ++
              uleb128 c.return_address_register ++ l) ++
              padWithNop
                ((s.buf ++ u32le 0 ++ u32le 0xFFFFFFFF ++ [c.version] ++
                  [0x00] ++ [c.address_size] ++ [c.segment_selector_size] ++
                  uleb128 c.code_alignment_factor ++
                  sleb128 c.data_alignment_factor ++
                  uleb128 c.return_address_register ++ l).length -
                  s.buf.length) c.address_size)
            s.buf.length
            (u32sub (natAsU32
              (((s.buf ++ u32le 0 ++ u32le 0xFFFFFFFF ++ [c.version] ++
                [0x00] ++ [c.address_size] ++ [c.segment_selector_size] ++
                uleb128 c.code_alignment_factor ++
                sleb128 c.data_alignment_factor ++
                uleb128 c.return_address_register ++ l) ++
                padWithNop
                  ((s.buf ++ u32le 0 ++ u32le 0xFFFFFFFF ++ [c.version] ++
                    [0x00] ++ [c.address_size] ++
                    [c.segment_selector_size] ++
                    uleb128 c.code_alignment_factor ++
                    sleb128 c.data_alignment_factor ++
                    uleb128 c.return_address_register ++ l).length -
                    s.buf.length) c.address_size).length - s.buf.length))
              4), s.relocs⟩ := by
          intro r hmem
          obtain ⟨hb, he⟩ := hz r hmem
          have hfull : (s.buf ++ t).length = s.buf.length + t.length :=
            List.length_append _ _
          constructor
          · rw [patchU32At_length _ _ _ (by rw [ht, hfull]; omega), ht,
              hfull]
            omega
          · rw [bytesAt_patch_before _ _ _ _ _ (by omega)
                (by rw [ht, hfull]; omega),
              bytesAt_of_append_eq _ _ _ ht _ _ (by omega)]
            exact he
        obtain ⟨hz2, hlen2⟩ := writeFdes_invariant s.buf.length
          c.address_size c.fde_entries _ s' h h0 hmid
        exact ⟨hz2, by rw [hlen2]⟩
  · rw [if_neg ha] at h
    exact Except.noConfusion h

theorem fde_write_wrong_address_size (e : FDEEntry) (cie_ptr a : Nat)
    (s : WState) (ha : a ≠ 8) :
    e.write cie_ptr a s =
      .error ⟨s.buf ++ u32le 0 ++ u32le cie_ptr,
              s.relocs ++ [s.buf.length + 8]⟩ := by
  simp only [FDEEntry.write, if_neg ha]
  have hl : (s.buf ++ u32le 0 ++ u32le cie_ptr).length =
      s.buf.length + 8 := by
    simp [u32le]
  rw [hl]

theorem writeFdes_cons_ok_as (cie_ptr a : Nat) (f0 : FDEEntry)
    (rest : List FDEEntry) (s s' : WState)
    (h : writeFdes cie_ptr a (f0 :: rest) s = .ok s') : a = 8 := by
  simp only [writeFdes] at h
  cases hw : f0.write cie_ptr a s with
  | error s1 => rw [hw] at h; exact Except.noConfusion h
  | ok s1 => exact fde_write_ok_as f0 cie_ptr a s s1 hw

theorem cie_write_ok_as (c : CIEEntry) (s s' : WState) (f0 : FDEEntry)
    (rest : List FDEEntry) (hfd : c.fde_entries = f0 :: rest)
    (h : c.write s = .ok s') : c.address_size = 8 := by
  simp only [CIEEntry.write, hfd] at h
  by_cases ha : c.aug.length = 0
  · rw [if_pos ha] at h
    cases hw : writeInstrs c.initial_instructions
        (s.buf ++ u32le 0 ++ u32le 0xFFFFFFFF ++ [c.version] ++ [0x00] ++
          [c.address_size] ++ [c.segment_selector_size] ++
          uleb128 c.code_alignment_factor ++
          sleb128 c.data_alignment_factor ++
          uleb128 c.return_address_register) with
    | error b => rw [hw] at h; exact Except.noConfusion h
    | ok out =>
        rw [hw] at h
        exact writeFdes_cons_ok_as _ _ _ _ _ _ h
  · rw [if_neg ha] at h
    exact Except.noConfusion h

theorem gdfb_none_of_bad_ptr (funcs : List Nat) (isa : Isa)
    (layouts : List FrameLayout) (hp : isa.pointer_bytes ≠ 8)
    (hne : funcs ≠ []) :
    get_debug_frame_bytes funcs isa layouts = none := by
  unfold get_debug_frame_bytes
  by_cases hcond : isa.name = "x86" ∧ ∀ l ∈ layouts,
      l.call_conv = .fast ∨ l.call_conv = .cold ∨ l.call_conv = .systemV
  · rw [if_pos hcond]
    cases hb : buildFdes isa layouts funcs 0 with
    | none => rfl
    | some fdes =>
        dsimp only
        obtain ⟨hlen, h0⟩ := buildFdes_shape isa layouts funcs 0 fdes hb
        cases fdes with
        | nil =>
            cases funcs with
            | nil => exact absurd rfl hne
            | cons a b => simp at hlen
        | cons f0 rest =>
            split
            · rfl
            · next s1 hw =>
                exfalso
                simp only [DebugFrameTable.write] at hw
                split at hw
                · exact Except.noConfusion hw
                · next s2 hcw =>
                    have has := cie_write_ok_as _ _ _ _ _ rfl hcw
                    exact hp has
  · rw [if_neg hcond]

theorem gdfb_relocs_zeroed (funcs : List Nat) (isa : Isa)
    (layouts : List FrameLayout) (buf relocs : List Nat)
    (h : get_debug_frame_bytes funcs isa layouts = some (buf, relocs)) :
    relocs.length = funcs.length ∧
    ∀ r ∈ relocs, bytesAt buf r 8 = List.replicate 8 0 := by
  unfold get_debug_frame_bytes at h
  by_cases hcond : isa.name = "x86" ∧ ∀ l ∈ layouts,
      l.call_conv = .fast ∨ l.call_conv = .cold ∨ l.call_conv = .systemV
  · rw [if_pos hcond] at h
    cases hb : buildFdes isa layouts funcs 0 with
    | none => rw [hb] at h; exact Option.noConfusion h
    | some fdes =>
        rw [hb] at h
        dsimp only at h
        obtain ⟨hlen, h0⟩ := buildFdes_shape isa layouts funcs 0 fdes hb
        split at h
        · exact Option.noConfusion h
        · next s1 hw =>
            simp only [Option.some.injEq, Prod.mk.injEq] at h
            obtain ⟨h1, h2⟩ := h
            subst h1 h2
            simp only [DebugFrameTable.write] at hw
            split at hw
            · exact Except.noConfusion hw
            · next s2 hcw =>
                cases hw
                obtain ⟨hz, hrl⟩ := cie_write_state _ _ _ hcw
                  (by dsimp only; exact h0)
                  (by intro r hr; simp at hr)
                constructor
                · dsimp only at hrl
                  simp only [List.length_nil] at hrl
                  omega
                · intro r hr
                  exact (hz r hr).2
  · rw [if_neg hcond] at h
    exact Option.noConfusion h

/-- C10: the encoder only supports address size 8: with any other address
size, writing a function entry fails on the `assert!(address_size == 8)`
after only the length placeholder and CIE pointer (no address field) are
written; `get_debug_frame_bytes` on a target with pointer width ≠ 8 and at
least one function fails; and on success every function entry's
initial-location placeholder is 8 zero bytes whose offset is recorded in
the relocation list, one relocation per function. -/
theorem address_size_eight_only :
    (∀ (e : FDEEntry) (cie_ptr a : Nat) (s : WState), a ≠ 8 →
      e.write cie_ptr a s =
        .error ⟨s.buf ++ u32le 0 ++ u32le cie_ptr,
                s.relocs ++ [s.buf.length + 8]⟩) ∧
    (∀ (funcs : List Nat) (isa : Isa) (layouts : List FrameLayout),
      isa.pointer_bytes ≠ 8 → funcs ≠ [] →
      get_debug_frame_bytes funcs isa layouts = none) ∧
    (∀ (funcs : List Nat) (isa : Isa) (layouts : List FrameLayout)
      (buf relocs : List Nat),
      get_debug_frame_bytes funcs isa layouts = some (buf, relocs) →
      relocs.length = funcs.length ∧
      ∀ r ∈ relocs, bytesAt buf r 8 = List.replicate 8 0) :=
  ⟨fun e cie_ptr a s ha => fde_write_wrong_address_size e cie_ptr a s ha,
   fun funcs isa layouts hp hne => gdfb_none_of_bad_ptr funcs isa layouts hp hne,
   fun funcs isa layouts buf relocs h =>
     gdfb_relocs_zeroed funcs isa layouts buf relocs h⟩

theorem address_size_eight_only_witness :
    FDEEntry.write ⟨0, 16, []⟩ 0 4 ⟨[], []⟩ =
      .error ⟨[0, 0, 0, 0, 0, 0, 0, 0], [8]⟩ ∧
    get_debug_frame_bytes [16] ⟨"x86", 4, fun _ => "%rsp"⟩
      [⟨.systemV, []⟩] = none ∧
    (([32] : List Nat).length = ([16] : List Nat).length ∧
      ∀ r ∈ ([32] : List Nat),
        bytesAt [20, 0, 0, 0, 255, 255, 255, 255, 4, 0, 8, 0, 1, 120, 16,
                 12, 7, 8, 144, 1, 0, 0, 0, 0, 20, 0, 0, 0, 0, 0, 0, 0, 0,
                 0, 0, 0, 0, 0, 0, 0, 16, 0, 0, 0, 0, 0, 0, 0] r 8 =
          List.replicate 8 0) := by
  refine ⟨?_, ?_, ?_⟩
  · have h := address_size_eight_only.1 ⟨0, 16, []⟩ 0 4 ⟨[], []⟩ (by decide)
    simpa [u32le] using h
  · exact address_size_eight_only.2.1 [16] ⟨"x86", 4, fun _ => "%rsp"⟩
      [⟨.systemV, []⟩] (by decide) (by simp)
  · exact address_size_eight_only.2.2 [16] isaX86 [⟨.systemV, []⟩] _ [32]
      (by simp [get_debug_frame_bytes, buildFdes, processCommands,
        CIEEntry.write, FDEEntry.write, DebugFrameTable.write, writeFdes,
        writeInstrs, CallFrameInstruction.write, uleb128, sleb128,
        padWithNop, padTailLen, u32le, u64le, patchU32At, u32sub,
        natAsU32, and_seven_eq_mod, isaX86])

theorem enumerate_eq_enum (inputs : List β) :
    enumerate inputs = inputs.enum :=
  (List.enum_eq_zip_range inputs).symm

theorem mem_enumerate {inputs : List β} {i : Nat} {b : β} :
    (i, b) ∈ enumerate inputs ↔ inputs[i]? = some b := by
  rw [enumerate_eq_enum]
  exact List.mk_mem_enum_iff_getElem?

theorem runTasks_error_mem (tF : Nat → β → Option γ)
    (cF : Nat → γ → Option α) (l : List (Nat × β)) (e : CompileErr)
    (h : runTasks tF cF l = .error e) :
    ∃ p ∈ l, compileOne tF cF p.1 p.2 = .error e := by
  induction l with
  | nil => simp only [runTasks] at h; exact Except.noConfusion h
  | cons p rest ih =>
      obtain ⟨i, input⟩ := p
      simp only [runTasks] at h
      cases hw : compileOne tF cF i input with
      | error e0 =>
          rw [hw] at h
          cases h
          exact ⟨(i, input), by simp, hw⟩
      | ok a =>
          rw [hw] at h
          cases h2 : runTasks tF cF rest with
          | error e0 =>
              rw [h2] at h
              cases h
              obtain ⟨q, hq, hqe⟩ := ih h2
              exact ⟨q, List.mem_cons_of_mem _ hq, hqe⟩
          | ok rs =>
              rw [h2] at h
              exact Except.noConfusion h

theorem runTasks_mem_error (tF : Nat → β → Option γ)
    (cF : Nat → γ → Option α) (l : List (Nat × β)) (p : Nat × β)
    (hp : p ∈ l) (e : CompileErr)
    (hf : compileOne tF cF p.1 p.2 = .error e) :
    ∃ e2, runTasks tF cF l = .error e2 := by
  induction l with
  | nil => simp at hp
  | cons q rest ih =>
      obtain ⟨i, input⟩ := q
      simp only [runTasks]
      cases hw : compileOne tF cF i input with
      | error e0 => exact ⟨e0, rfl⟩
      | ok a =>
          have hpr : p ∈ rest := by
            rcases List.mem_cons.mp hp with hh | hh
            · subst hh; rw [hw] at hf; exact Except.noConfusion hf
            · exact hh
          obtain ⟨e2, he2⟩ := ih hpr
          rw [he2]
          exact ⟨e2, rfl⟩

theorem runTasks_ok_forall2 (tF : Nat → β → Option γ)
    (cF : Nat → γ → Option α) (l : List (Nat × β))
    (pairs : List (Nat × α)) (h : runTasks tF cF l = .ok pairs) :
    List.Forall₂
      (fun p q => q.1 = p.1 ∧ compileOne tF cF p.1 p.2 = .ok q.2)
      l pairs := by
  induction l generalizing pairs with
  | nil =>
      simp only [runTasks] at h
      cases h
      exact List.Forall₂.nil
  | cons p rest ih =>
      obtain ⟨i, input⟩ := p
      simp only [runTasks] at h
      cases hw : compileOne tF cF i input with
      | error e0 => rw [hw] at h; exact Except.noConfusion h
      | ok a =>
          rw [hw] at h
          cases h2 : runTasks tF cF rest with
          | error e0 => rw [h2] at h; exact Except.noConfusion h
          | ok rs =>
              rw [h2] at h
              cases h
              exact List.Forall₂.cons ⟨rfl, hw⟩ (ih rs h2)

theorem runTasks_ok_of_all (tF : Nat → β → Option γ)
    (cF : Nat → γ → Option α) (l : List (Nat × β))
    (hall : ∀ p ∈ l, ∃ a, compileOne tF cF p.1 p.2 = .ok a) :
    ∃ pairs, runTasks tF cF l = .ok pairs := by
  induction l with
  | nil => exact ⟨[], rfl⟩
  | cons p rest ih =>
      obtain ⟨i, input⟩ := p
      obtain ⟨a, ha⟩ := hall (i, input) (by simp)
      obtain ⟨pairs, hp⟩ := ih (fun q hq => hall q (List.mem_cons_of_mem _ hq))
      exact ⟨(i, a) :: pairs, by simp only [runTasks, ha, hp]⟩

theorem forall2_mem_left {R : η → θ → Prop} {l : List η} {m : List θ}
    (h : List.Forall₂ R l m) {a : η} (ha : a ∈ l) : ∃ b ∈ m, R a b := by
  induction h with
  | nil => simp at ha
  | cons hr hrest ih =>
      rcases List.mem_cons.mp ha with hh | hh
      · subst hh; exact ⟨_, by simp, hr⟩
      · obtain ⟨b, hb, hab⟩ := ih hh
        exact ⟨b, List.mem_cons_of_mem _ hb, hab⟩

theorem forall2_mem_right {R : η → θ → Prop} {l : List η} {m : List θ}
    (h : List.Forall₂ R l m) {b : θ} (hb : b ∈ m) : ∃ a ∈ l, R a b := by
  induction h with
  | nil => simp at hb
  | cons hr hrest ih =>
      rcases List.mem_cons.mp hb with hh | hh
      · subst hh; exact ⟨_, by simp, hr⟩
      · obtain ⟨a, ha, hab⟩ := ih hh
        exact ⟨a, List.mem_cons_of_mem _ ha, hab⟩

theorem fillRange_forall2 (pairs : List (Nat × α)) (idx : List Nat)
    (vals : List α)
    (h : List.Forall₂
      (fun i v => pairs.find? (fun p => p.1 == i) = some (i, v)) idx vals) :
    fillRange pairs idx = some vals := by
  induction h with
  | nil => rfl
  | cons hf hrest ih => simp only [fillRange, hf, ih]

theorem find_first_eq (pairs : List (Nat × α)) (i : Nat) (a : α)
    (hex : ∃ q ∈ pairs, q.1 = i)
    (huniq : ∀ q ∈ pairs, q.1 = i → q.2 = a) :
    pairs.find? (fun p => p.1 == i) = some (i, a) := by
  induction pairs with
  | nil => obtain ⟨q, hq, _⟩ := hex; simp at hq
  | cons q rest ih =>
      by_cases hq : q.1 = i
      · rw [List.find?_cons_of_pos _ (by simpa using hq)]
        have h2 : q.2 = a := huniq q (by simp) hq
        rw [show q = (i, a) from Prod.ext hq h2]
      · rw [List.find?_cons_of_neg _ (by simpa using hq)]
        apply ih
        · obtain ⟨q2, hq2, he⟩ := hex
          rcases List.mem_cons.mp hq2 with hh | hh
          · subst hh; exact absurd he hq
          · exact ⟨q2, hh, he⟩
        · exact fun q2 hq2 he => huniq q2 (List.mem_cons_of_mem _ hq2) he

/-- C7: compiling through the parallel orchestrator — the per-function
tasks run in an arbitrary completion order, results placed by function
index — yields the same per-function result collection as a sequential
compile of the same module: nothing is reordered or dropped. -/
theorem parallel_compile_index_identical (tF : Nat → β → Option γ)
    (cF : Nat → γ → Option α) (inputs : List β) (order : List (Nat × β))
    (rs : List α) (hperm : order.Perm (enumerate inputs))
    (hseq : compile_module_seq tF cF inputs = .ok rs) :
    compile_module tF cF inputs order = .ok (some rs) := by
  unfold compile_module_seq at hseq
  cases hs : runTasks tF cF (enumerate inputs) with
  | error e => rw [hs] at hseq; exact Except.noConfusion hseq
  | ok pairs0 =>
      rw [hs] at hseq
      have hrs : pairs0.map Prod.snd = rs := by cases hseq; rfl
      subst hrs
      have hf0 := runTasks_ok_forall2 tF cF _ _ hs
      have hall : ∀ p ∈ order, ∃ a, compileOne tF cF p.1 p.2 = .ok a := by
        intro p hp
        obtain ⟨q, _, _, hok⟩ := forall2_mem_left hf0 (hperm.subset hp)
        exact ⟨q.2, hok⟩
      obtain ⟨pairs1, hr1⟩ := runTasks_ok_of_all tF cF order hall
      have hf1 := runTasks_ok_forall2 tF cF _ _ hr1
      unfold compile_module
      rw [hr1]
      have hlenE : (enumerate inputs).length = inputs.length := by
        simp [enumerate]
      have hlen : pairs0.length = inputs.length := by
        have := hf0.length_eq
        omega
      have hfill : fillRange pairs1 (List.range inputs.length) =
          some (pairs0.map Prod.snd) := by
        apply fillRange_forall2
        refine List.forall₂_iff_get.mpr ⟨by simp [hlen], ?_⟩
        intro k h1 h2
        have hk : k < inputs.length := by simpa using h1
        have hk0 : k < pairs0.length := by omega
        have hkE : k < (enumerate inputs).length := by omega
        have hpos := (List.forall₂_iff_get.mp hf0).2 k hkE hk0
        have hEget : (enumerate inputs).get ⟨k, hkE⟩ =
            (k, inputs.get ⟨k, hk⟩) := by
          simp [enumerate_eq_enum, List.get_eq_getElem]
        rw [hEget] at hpos
        have hrget : (List.range inputs.length).get ⟨k, h1⟩ = k := by
          simp
        rw [hrget]
        have hvget : (pairs0.map Prod.snd).get ⟨k, h2⟩ =
            (pairs0.get ⟨k, hk0⟩).2 := by
          simp
        rw [hvget]
        apply find_first_eq
        · have hmem : (k, inputs.get ⟨k, hk⟩) ∈ enumerate inputs := by
            apply mem_enumerate.mpr
            simp [List.get_eq_getElem, List.getElem?_eq_getElem hk]
          have hmemO : (k, inputs.get ⟨k, hk⟩) ∈ order :=
            hperm.mem_iff.mpr hmem
          obtain ⟨q, hq, hq1, _⟩ := forall2_mem_left hf1 hmemO
          exact ⟨q, hq, by rw [hq1]⟩
        · intro q hq hq1
          obtain ⟨p, hpO, hp1, hpok⟩ := forall2_mem_right hf1 hq
          obtain ⟨i2, b2⟩ := p
          have hpE : (i2, b2) ∈ enumerate inputs := hperm.subset hpO
          have hg : inputs[i2]? = some b2 := mem_enumerate.mp hpE
          have h3 : q.1 = i2 := hp1
          have hik : i2 = k := h3.symm.trans hq1
          rw [hik] at hg
          have hb2 : b2 = inputs.get ⟨k, hk⟩ := by
            have h4 := hg.symm.trans (List.getElem?_eq_getElem hk)
            rw [List.get_eq_getElem]
            exact Option.some.inj h4
          have hpok2 : compileOne tF cF i2 b2 = .ok q.2 := hpok
          rw [hik, hb2] at hpok2
          exact Except.ok.inj (hpok2.symm.trans hpos.2)
      dsimp only
      rw [hfill]

theorem parallel_compile_index_identical_witness :
    compile_module (fun i b => some (b + i)) (fun _ c => some (c * 2))
      [10, 20] [(1, 20), (0, 10)] = .ok (some [20, 42]) :=
  parallel_compile_index_identical (fun i b => some (b + i))
    (fun _ c => some (c * 2)) [10, 20] [(1, 20), (0, 10)] [20, 42]
    (by decide) rfl

/-- C8: if any single function's translation or code generation fails,
`compile_module` returns an error identifying that function's index and
the failing stage, and returns no result collections at all
(all-or-nothing); conversely a failing task always forces the error
outcome. -/
theorem compile_failure_all_or_nothing (tF : Nat → β → Option γ)
    (cF : Nat → γ → Option α) (inputs : List β) (order : List (Nat × β))
    (hperm : order.Perm (enumerate inputs)) :
    (∀ e, compile_module tF cF inputs order = .error e →
      e.func < inputs.length ∧
      ∃ b, inputs[e.func]? = some b ∧
        ((e.stage = .translation ∧ tF e.func b = none) ∨
         (e.stage = .codegen ∧
           ∃ c, tF e.func b = some c ∧ cF e.func c = none))) ∧
    (∀ i b e0, (i, b) ∈ order → compileOne tF cF i b = .error e0 →
      ∃ e, compile_module tF cF inputs order = .error e) := by
  constructor
  · intro e he
    unfold compile_module at he
    cases hs : runTasks tF cF order with
    | error e2 =>
        rw [hs] at he
        cases he
        obtain ⟨p, hp, hpe⟩ := runTasks_error_mem tF cF order e hs
        obtain ⟨i, b⟩ := p
        have hpE : (i, b) ∈ enumerate inputs := hperm.subset hp
        have hget : inputs[i]? = some b := mem_enumerate.mp hpE
        have hlt : i < inputs.length := by
          rcases List.getElem?_eq_some.mp hget with ⟨hh, _⟩
          exact hh
        have hpe2 : compileOne tF cF i b = .error e := hpe
        unfold compileOne at hpe2
        cases ht : tF i b with
        | none =>
            rw [ht] at hpe2
            cases hpe2
            exact ⟨hlt, b, hget, Or.inl ⟨rfl, ht⟩⟩
        | some cc =>
            rw [ht] at hpe2
            dsimp only at hpe2
            cases hc : cF i cc with
            | none =>
                rw [hc] at hpe2
                cases hpe2
                exact ⟨hlt, b, hget, Or.inr ⟨rfl, cc, ht, hc⟩⟩
            | some a =>
                rw [hc] at hpe2
                exact Except.noConfusion hpe2
    | ok pairs =>
        rw [hs] at he
        exact Except.noConfusion he
  · intro i b e0 hmem hf
    obtain ⟨e2, he2⟩ := runTasks_mem_error tF cF order (i, b) hmem e0 hf
    refine ⟨e2, ?_⟩
    unfold compile_module
    rw [he2]

theorem compile_failure_all_or_nothing_witness :
    (∃ e, compile_module
      (fun i b => if i = 1 then none else some (b : Nat))
      (fun _ c => some (c : Nat)) [10, 20] [(0, 10), (1, 20)] =
        .error e) ∧
    (⟨1, Stage.translation⟩ : CompileErr).func <
      ([10, 20] : List Nat).length := by
  constructor
  · exact (compile_failure_all_or_nothing
      (fun i b => if i = 1 then none else some (b : Nat))
      (fun _ c => some (c : Nat)) [10, 20] [(0, 10), (1, 20)]
      (by decide)).2 1 20 ⟨1, .translation⟩ (by simp) rfl
  · exact ((compile_failure_all_or_nothing
      (fun i b => if i = 1 then none else some (b : Nat))
      (fun _ c => some (c : Nat)) [10, 20] [(0, 10), (1, 20)]
      (by decide)).1 ⟨1, .translation⟩ rfl).1

end Wasmtime
